import Mathlib

set_option maxHeartbeats 1000000

/-!
# A verification development for `sqlalchemy_bundle_model`

This file gives a shallow embedding of `sqlalchemy_bundle_model/__init__.py`
(version 0.2.0) and proves properties of the bundle-definition builder
(`BundleMeta.__init__`), the row decoder (`BundleResult.__new__`,
`BundleModel.create_row_processor`), the `bundle()` copy helper and the
`col()` helper.

Modelling choices, shared by every definition below:

* A Python namespace / `OrderedDict` / class `__dict__` is an association
  list `List (String × Value)` in insertion order.  All dictionaries the
  source builds start empty and are only written through `__setitem__`
  (and `move_to_end`), so their key lists stay duplicate-free; the
  operations below mirror CPython's ordering guarantees (a plain write to
  an existing key keeps its position, `move_to_end` moves it to the end,
  a write to a fresh key appends).
* A class-body value is one of:
  - `Value.opExpr hasLabel ty payload` — a SQLAlchemy `Operators` value
    (`isinstance(value, Operators)` is true); `hasLabel` records
    `hasattr(value, '_label')`, `ty` records `value.type.python_type`
    (`none` when that property raises `NotImplementedError`);
  - `Value.aliasV a` — an `Alias` instance (the library's `Label`
    subclass); an `Alias` is itself an `Operators` with a `_label`, and
    the promotion loop of `BundleMeta.__init__` first re-wraps it and
    then (second, non-elif `if`) stores the original back, so its net
    behaviour is pass-through, which is what `promote` returns for it;
  - `Value.plain payload` — any other attribute value (plain data,
    functions, metadata, the builder's own bookkeeping objects).
  `payload` is an opaque identity for the underlying Python object.
* `__module__` / `__qualname__` entries of a real class body are omitted:
  they are underscore-named plain strings, are never promoted to fields,
  and are excluded by `bundle()`'s underscore filter, so they cannot
  influence any property proved here.
-/

/-- Best-effort semantic value type recorded in a decoder annotation:
`BundleResult.__new__` stores `alias.type.python_type`, or `typing.Any`
when that raises `NotImplementedError`. -/
inductive PyAnnot where
  | anyType
  | ofType (tyName : String)
deriving DecidableEq, Repr

/-- Model of an `Alias` object (the source's `Label` subclass): its label
name, the `python_type` of its SQL type (`none` when `python_type` raises
`NotImplementedError`), and an opaque payload identifying the wrapped
element. -/
structure AliasV where
  name : String
  pyType : Option String
  payload : Nat
deriving DecidableEq, Repr

/-- Model of a Python attribute value, as classified by the promotion loop
of `BundleMeta.__init__` (lines 101-105 of the source). -/
inductive Value where
  | opExpr (hasLabel : Bool) (pyType : Option String) (payload : Nat)
  | aliasV (a : AliasV)
  | plain (payload : Nat)
deriving DecidableEq, Repr

/-- A namespace / ordered dictionary: association list in insertion order. -/
abbrev NS := List (String × Value)

/-- The key list of a namespace, in insertion order. -/
def keysOf (ns : NS) : List String := ns.map Prod.fst

/-- Dictionary lookup: value of the first (for the dictionaries built here,
the only) entry with the given key. -/
def getVal? : NS → String → Option Value
  | [], _ => none
  | kv :: rest, k => if kv.1 = k then some kv.2 else getVal? rest k

/-- One step of the merge loops of `BundleMeta.__init__` (lines 91-99):
`if key in d: d.move_to_end(key)` followed by `d[key] = value`.  On a
duplicate-free dictionary this removes any existing entry for the key and
appends the new binding at the end. -/
def odSet (m : NS) (k : String) (v : Value) : NS :=
  m.filter (fun kv => decide (kv.1 ≠ k)) ++ [(k, v)]

/-- The inner merge loop: layer `items` over `acc`, last write wins and a
rewritten key moves to the end (lines 91-99 of the source). -/
def mergeItems (acc items : NS) : NS :=
  items.foldl (fun m kv => odSet m kv.1 kv.2) acc

/-- The merged namespace `_namespace` of `BundleMeta.__init__`: every
base's `__dict__`, left to right, then the body, each layered with
`mergeItems` over an initially empty ordered dictionary. -/
def buildNamespace (baseDicts : List NS) (body : NS) : NS :=
  mergeItems (baseDicts.foldl mergeItems []) body

/-- The promotion decision of lines 101-105: an `Operators` value with a
`_label` is wrapped into `Alias(value, key)`; a value that is already an
`Alias` passes through unchanged (the second `if` overwrites the first's
wrap with the original object); anything else is not a field. -/
def promote (key : String) : Value → Option AliasV
  | .opExpr hasLabel ty payload => if hasLabel then some ⟨key, ty, payload⟩ else none
  | .aliasV a => some a
  | .plain _ => none

/-- The value stored back into the namespace by the promotion loop
(`namespace[attr_key] = ...` in lines 103 and 105). -/
def promoteVal (key : String) (v : Value) : Value :=
  match promote key v with
  | some a => .aliasV a
  | none => v

/-- The merged namespace after the promotion loop has rewritten it. -/
def promoteNS (ns : NS) : NS := ns.map (fun kv => (kv.1, promoteVal kv.1 kv.2))

/-- `cls.__attrs` after the promotion loop: the ordered field list, one
entry per namespace key whose value promotes, in namespace order. -/
def buildAttrs (ns : NS) : List (String × AliasV) :=
  ns.filterMap (fun kv => (promote kv.1 kv.2).map (fun a => (kv.1, a)))

/-- A plain dictionary write (`d[key] = value`) or a class `setattr`: an
existing key keeps its position, a fresh key appends. -/
def dSet (m : NS) (k : String) (v : Value) : NS :=
  if k ∈ keysOf m then m.map (fun kv => if kv.1 = k then (k, v) else kv)
  else m ++ [(k, v)]

/-- `d.update(items)` (or a sequence of `setattr` calls): `dSet` for each
entry of `items` in order. -/
def dUpdate (m items : NS) : NS :=
  items.foldl (fun acc kv => dSet acc kv.1 kv.2) m

/-- The name-mangled class attribute created by `cls.__attrs = OrderedDict()`
on line 89 (inside `class BundleMeta`, `cls.__attrs` mangles to
`cls._BundleMeta__attrs`). -/
def mangledKey : String := "_BundleMeta__attrs"

/-- The instance attributes `Bundle.__init__` (SQLAlchemy 1.4) sets on the
class when line 106 runs: `self.name = self._label = name`, `self.exprs`,
`self.c = self.columns`, `self.single_entity`.  All are plain values
(strings, lists, column collections, booleans): none is an `Operators`,
so none can ever be promoted to a field. -/
def bundleInitEntries : NS :=
  [("name", .plain 0), ("_label", .plain 0), ("exprs", .plain 0),
   ("c", .plain 0), ("columns", .plain 0), ("single_entity", .plain 0)]

/-- Every bookkeeping entry `BundleMeta.__init__` itself writes into the
class `__dict__`: the mangled attrs dictionary plus the `Bundle.__init__`
attributes. -/
def resvEntries : NS := (mangledKey, .plain 0) :: bundleInitEntries

/-- The reserved bookkeeping keys. -/
def reservedKeys : List String := keysOf resvEntries

/-- A finalized bundle definition: its name, its ordered field list
(`cls.__attrs`, also exposed as the `aliases` property) and its class
`__dict__` in insertion order (what a later build iterates when this
definition is used as a base). -/
structure BuiltDef where
  name : String
  attrs : List (String × AliasV)
  clsDict : NS
deriving DecidableEq, Repr

/-- `BundleMeta.__init__` (lines 88-116), given the base class dictionaries
and the body namespace:

1. line 89: `cls.__attrs = OrderedDict()` appends the mangled key to the
   class dict (which `type.__new__` initialized to a copy of the body);
2. lines 90-99: merge every base `__dict__` then the body into
   `_namespace`, last write wins and moving a rewritten key to the end;
3. lines 101-105: promote the merged entries, filling `cls.__attrs` and
   rewriting the merged namespace;
4. line 106: `super().__init__(name, *cls.__attrs.values())` runs
   `Bundle.__init__`, which sets its bookkeeping attributes on the class;
5. line 107: `namespace.update(cls.__dict__)`;
6. line 108: `namespace.update(cls.__attrs)` (the field keys get their
   `Alias` values back);
7. lines 109-115: `setattr(cls, key, value)` for every merged entry
   (existing class-dict keys keep their position, new keys append);
8. line 116: `setattr(cls, '__name__', name)` sets the type's name slot,
   which does not appear in the class `__dict__`. -/
def bundleMetaInit (name : String) (baseDicts : List NS) (body : NS) : BuiltDef :=
  let merged := buildNamespace baseDicts body
  let attrs := buildAttrs merged
  let promoted := promoteNS merged
  let dict1 := dSet body mangledKey (.plain 0)
  let dict2 := dUpdate dict1 bundleInitEntries
  let ns2 := dUpdate promoted dict2
  let ns3 := dUpdate ns2 (attrs.map (fun p => (p.1, Value.aliasV p.2)))
  let dict3 := dUpdate dict2 ns3
  { name := name, attrs := attrs, clsDict := dict3 }

/-- Building a definition whose bases are themselves built definitions:
the merge loop reads each base's class `__dict__`. -/
def build (name : String) (bases : List BuiltDef) (body : NS) : BuiltDef :=
  bundleMetaInit name (bases.map (·.clsDict)) body

/-- The ordered field names of a finalized definition. -/
def fieldNames (d : BuiltDef) : List String := d.attrs.map Prod.fst

/-- The field names a raw namespace would contribute (the keys of its
promotable entries, in order). -/
def fieldKeys (ns : NS) : List String := (buildAttrs ns).map Prod.fst

/-- The annotation `BundleResult.__new__` computes for one alias (lines
196-199): `alias.type.python_type`, or `Any` when that raises
`NotImplementedError`. -/
def aliasAnnot (a : AliasV) : PyAnnot :=
  match a.pyType with
  | some s => .ofType s
  | none => .anyType

/-- `BundleResult.__new__` (lines 192-204): the named-tuple row decoder
derived from a definition — one `(name, type)` pair per entry of
`bundle_cls.aliases`, in order. -/
def bundleResultNew (d : BuiltDef) : List (String × PyAnnot) :=
  d.attrs.map (fun p => (p.1, aliasAnnot p.2))

/-- A raw column value produced by the host query layer. -/
inductive PyVal where
  | vInt (n : Int)
  | vStr (s : String)
  | vBool (b : Bool)
  | vNone
deriving DecidableEq, Repr

/-- The decode-time failure: calling the generated named-tuple class with
the wrong number of positional arguments raises `TypeError` (the spec's
`ShapeMismatch`). -/
inductive RowError where
  | shapeMismatch
deriving DecidableEq, Repr

/-- CPython `NamedTuple` positional construction, as invoked by
`result_cls(*super_proc(row))` on line 148: all fields are mandatory with
no defaults, so the call succeeds exactly when the argument count equals
the field count, binding arguments to fields positionally with no type
checking or coercion; otherwise it raises. -/
def namedTupleNew (fields : List String) (args : List PyVal) :
    Except RowError (List (String × PyVal)) :=
  if args.length = fields.length then .ok (fields.zip args) else .error .shapeMismatch

/-- Decoding one raw row against a definition: construct the definition's
`BundleResult` named tuple from the positional values. -/
def decode (d : BuiltDef) (raw : List PyVal) : Except RowError (List (String × PyVal)) :=
  namedTupleNew ((bundleResultNew d).map Prod.fst) raw

/-- `BundleModel.create_row_processor` (lines 133-153).  Every call
executes `result_cls = BundleResult(cls)` (line 145), and
`BundleResult.__new__` ends in `type.__new__`, which allocates a fresh
named-tuple class; the source keeps no cache of previously generated
decoder classes.  The allocation is the only state, modelled as an
explicit counter of decoder classes created so far: a call returns the
decoder it derived and the new allocation count. -/
def createRowProcessor (d : BuiltDef) (decoderClassCount : Nat) :
    (List (String × PyAnnot)) × Nat :=
  (bundleResultNew d, decoderClassCount + 1)

/-- A base object as handed to the metaclass call: either an ordinary
class (one whose metaclass is compatible with `BundleMeta`, e.g. `type`;
given by its `__dict__` in order, dunder descriptor entries such as
`__dict__`/`__weakref__`/`__doc__` omitted as inert plain values) or a
non-class object.  `type.__new__` raises `TypeError` when any base is not
a class, before `BundleMeta.__init__` runs; an ordinary class of any kind
is accepted. -/
inductive PyBase where
  | cls (dict : NS)
  | nonClass (tag : Nat)
deriving DecidableEq, Repr

/-- The construction-time error of `type.__new__`. -/
inductive BuildError where
  | typeError
deriving DecidableEq, Repr

/-- `type.__new__`'s base validation: fail on the first non-class base,
otherwise produce the list of base dictionaries. -/
def classDicts : List PyBase → Except BuildError (List NS)
  | [] => .ok []
  | .cls d :: rest => (classDicts rest).map (fun ds => d :: ds)
  | .nonClass _ :: _ => .error .typeError

/-- A full metaclass call `BundleMeta(name, bases, body)`: `type.__new__`
validates the bases, then `BundleMeta.__init__` builds the definition. -/
def buildChecked (name : String) (bases : List PyBase) (body : NS) :
    Except BuildError BuiltDef :=
  match classDicts bases with
  | .ok ds => .ok (bundleMetaInit name ds body)
  | .error e => .error e

/-- `dir(class_)`: the sorted, duplicate-free list of attribute names of a
class (modelled over the class's full attribute listing). -/
def pyDir (c : NS) : List String :=
  List.insertionSort (fun a b : String => a ≤ b) (keysOf c).dedup

/-- The namespace collected by `bundle()` (lines 184-188): iterate
`dir(class_)` and keep `(attr, getattr(class_, attr))` for every name that
does not start with an underscore and is not `"metadata"`. -/
def bundleNamespace (c : NS) : NS :=
  (pyDir c).foldl (fun ns attr =>
    if !attr.startsWith "_" && attr != "metadata" then
      match getVal? c attr with
      | some v => ns ++ [(attr, v)]
      | none => ns
    else ns) []

/-- `bundle(class_)` (lines 164-189): build a definition named after the
class, with no bases, from the collected namespace. -/
def bundle (name : String) (c : NS) : BuiltDef :=
  bundleMetaInit name [] (bundleNamespace c)

/-- `col(_type, column)` (lines 207-208): returns `column` unchanged; the
`_type` argument exists only for the benefit of static type checkers. -/
def col (_type : String) (column : Value) : Value := column

/-- Drop every entry whose key occurs in `ks`. -/
def removeKeys (m : NS) (ks : List String) : NS :=
  m.filter (fun kv => decide (kv.1 ∉ ks))

/-- Replace the value of every entry of `m` whose key `items` binds by the
`items` value (keeping positions); other entries are untouched. -/
def applyOverrides (items m : NS) : NS :=
  m.map (fun kv =>
    match getVal? items kv.1 with
    | some v => (kv.1, v)
    | none => kv)

/-! ### Association-list lemmas -/

theorem keysOf_append (a b : NS) : keysOf (a ++ b) = keysOf a ++ keysOf b := by
  simp [keysOf]

theorem getVal?_eq_none {m : NS} {k : String} (h : k ∉ keysOf m) :
    getVal? m k = none := by
  induction m with
  | nil => rfl
  | cons kv rest ih =>
    have hne : kv.1 ≠ k := by
      intro he
      exact h (by simp [keysOf, he])
    have hrest : k ∉ keysOf rest := fun hm => h (by simp [keysOf] at hm ⊢; exact Or.inr hm)
    simp [getVal?, hne, ih hrest]

theorem getVal?_of_mem {m : NS} {k : String} {v : Value}
    (hnd : (keysOf m).Nodup) (h : (k, v) ∈ m) : getVal? m k = some v := by
  induction m with
  | nil => simp at h
  | cons kv rest ih =>
    simp only [keysOf, List.map_cons, List.nodup_cons] at hnd
    rcases List.mem_cons.mp h with h1 | h2
    · subst h1; simp [getVal?]
    · have hne : kv.1 ≠ k := by
        intro he
        exact hnd.1 (he ▸ (List.mem_map.mpr ⟨(k, v), h2, rfl⟩))
      simp [getVal?, hne, ih hnd.2 h2]

theorem getVal?_append (a b : NS) (k : String) :
    getVal? (a ++ b) k =
      match getVal? a k with
      | some v => some v
      | none => getVal? b k := by
  induction a with
  | nil => simp [getVal?]
  | cons kv rest ih =>
    by_cases h : kv.1 = k
    · simp [getVal?, h]
    · simp [getVal?, h, ih]

theorem getVal?_append_left {a : NS} {k : String} (b : NS) (h : k ∈ keysOf a) :
    getVal? (a ++ b) k = getVal? a k := by
  induction a with
  | nil => simp [keysOf] at h
  | cons kv rest ih =>
    by_cases he : kv.1 = k
    · simp [getVal?, he]
    · have : k ∈ keysOf rest := by
        simp [keysOf] at h
        rcases h with h | h
        · exact absurd h.symm he
        · simpa [keysOf] using h
      simp [getVal?, he, ih this]

theorem getVal?_append_right {a : NS} {k : String} (b : NS) (h : k ∉ keysOf a) :
    getVal? (a ++ b) k = getVal? b k := by
  rw [getVal?_append, getVal?_eq_none h]

theorem removeKeys_nil (ks : List String) : removeKeys ([] : NS) ks = [] := rfl

theorem removeKeys_append (a b : NS) (ks : List String) :
    removeKeys (a ++ b) ks = removeKeys a ks ++ removeKeys b ks := by
  simp [removeKeys]

theorem removeKeys_eq_self {m : NS} {ks : List String}
    (h : ∀ kv ∈ m, kv.1 ∉ ks) : removeKeys m ks = m := by
  induction m with
  | nil => rfl
  | cons kv rest ih =>
    have h1 : kv.1 ∉ ks := h kv (List.mem_cons_self _ _)
    have h2 := ih (fun kv' hm => h kv' (List.mem_cons_of_mem _ hm))
    simp only [removeKeys, List.filter_cons] at h2 ⊢
    simp [h1, h2]
    exact fun a b hm => h (a, b) (List.mem_cons_of_mem _ hm)

theorem removeKeys_eq_nil {m : NS} {ks : List String}
    (h : ∀ kv ∈ m, kv.1 ∈ ks) : removeKeys m ks = [] := by
  induction m with
  | nil => rfl
  | cons kv rest ih =>
    have h1 : kv.1 ∈ ks := h kv (List.mem_cons_self _ _)
    have h2 := ih (fun kv' hm => h kv' (List.mem_cons_of_mem _ hm))
    simp only [removeKeys, List.filter_cons] at h2 ⊢
    simp [h1, h2]
    exact fun a b hm => h (a, b) (List.mem_cons_of_mem _ hm)

theorem keysOf_removeKeys (m : NS) (ks : List String) :
    keysOf (removeKeys m ks) = (keysOf m).filter (fun s => decide (s ∉ ks)) := by
  induction m with
  | nil => rfl
  | cons kv rest ih =>
    by_cases h : kv.1 ∈ ks
    · simp [removeKeys, keysOf, h] at ih ⊢; exact ih
    · simp [removeKeys, keysOf, h] at ih ⊢; exact ih

/-! ### The merge loop -/

theorem odSet_eq (m : NS) (k : String) (v : Value) :
    odSet m k v = removeKeys m [k] ++ [(k, v)] := by
  unfold odSet removeKeys
  congr 1
  apply List.filter_congr
  intro kv _
  simp

theorem mergeItems_nil (acc : NS) : mergeItems acc [] = acc := rfl

theorem mergeItems_cons (acc : NS) (k : String) (v : Value) (rest : NS) :
    mergeItems acc ((k, v) :: rest) = mergeItems (odSet acc k v) rest := rfl

theorem mergeItems_eq {items : NS} (acc : NS) (h : (keysOf items).Nodup) :
    mergeItems acc items = removeKeys acc (keysOf items) ++ items := by
  induction items generalizing acc with
  | nil =>
    simp [mergeItems_nil, removeKeys, keysOf]
  | cons kv rest ih =>
    obtain ⟨k, v⟩ := kv
    simp only [keysOf, List.map_cons, List.nodup_cons] at h
    have hk : k ∉ keysOf rest := fun hm => h.1 (by simpa [keysOf] using hm)
    rw [mergeItems_cons, ih _ h.2, odSet_eq, removeKeys_append]
    have h1 : removeKeys (removeKeys acc [k]) (keysOf rest)
        = removeKeys acc (keysOf ((k, v) :: rest)) := by
      unfold removeKeys
      rw [List.filter_filter]
      apply List.filter_congr
      intro kv' _
      simp only [keysOf, List.map_cons, List.mem_cons, decide_not]
      by_cases h1 : kv'.1 = k <;> by_cases h2 : kv'.1 ∈ keysOf rest <;>
        simp [h1, h2]
    have h2 : removeKeys [(k, v)] (keysOf rest) = [(k, v)] :=
      removeKeys_eq_self (by intro kv' hm; simp at hm; subst hm; exact hk)
    rw [h1, h2, List.append_assoc]
    rfl

theorem nodup_keysOf_odSet {m : NS} (k : String) (v : Value)
    (h : (keysOf m).Nodup) : (keysOf (odSet m k v)).Nodup := by
  rw [odSet_eq, keysOf_append, keysOf_removeKeys]
  refine List.Nodup.append (h.filter _) (List.nodup_singleton k) ?_
  intro s hs hk
  have hke : s = k := by simpa [keysOf] using hk
  subst hke
  have h2 := List.of_mem_filter hs
  simp only [List.mem_singleton, decide_not, Bool.not_eq_true', decide_eq_false_iff_not,
    Decidable.not_not] at h2
  exact absurd h2 (by simp)

theorem nodup_keysOf_mergeItems {acc items : NS} (h : (keysOf acc).Nodup) :
    (keysOf (mergeItems acc items)).Nodup := by
  induction items generalizing acc with
  | nil => exact h
  | cons kv rest ih => exact ih (nodup_keysOf_odSet kv.1 kv.2 h)

theorem nodup_keysOf_buildNamespace (baseDicts : List NS) (body : NS) :
    (keysOf (buildNamespace baseDicts body)).Nodup := by
  unfold buildNamespace
  apply nodup_keysOf_mergeItems
  induction baseDicts using List.reverseRecOn with
  | nil => simp [keysOf]
  | append_singleton ds d ih =>
    rw [List.foldl_append]
    exact nodup_keysOf_mergeItems ih

/-! ### Promotion lemmas -/

theorem promote_promoteVal (k : String) (v : Value) :
    promote k (promoteVal k v) = promote k v := by
  cases v with
  | opExpr hasLabel ty payload =>
    cases hasLabel <;> simp [promote, promoteVal]
  | aliasV a => simp [promote, promoteVal]
  | plain p => simp [promote, promoteVal]

theorem mem_keysOf_of_mem {m : NS} {kv : String × Value} (h : kv ∈ m) :
    kv.1 ∈ keysOf m :=
  List.mem_map.mpr ⟨kv, h, rfl⟩

theorem keysOf_promoteNS (ns : NS) : keysOf (promoteNS ns) = keysOf ns := by
  simp [keysOf, promoteNS, List.map_map]

theorem buildAttrs_nil : buildAttrs [] = [] := rfl

theorem buildAttrs_cons (kv : String × Value) (rest : NS) :
    buildAttrs (kv :: rest) =
      match promote kv.1 kv.2 with
      | some a => (kv.1, a) :: buildAttrs rest
      | none => buildAttrs rest := by
  simp only [buildAttrs, List.filterMap_cons]
  cases promote kv.1 kv.2 <;> simp

theorem buildAttrs_append (a b : NS) :
    buildAttrs (a ++ b) = buildAttrs a ++ buildAttrs b := by
  simp [buildAttrs]

theorem buildAttrs_promoteNS (ns : NS) :
    buildAttrs (promoteNS ns) = buildAttrs ns := by
  unfold buildAttrs promoteNS
  rw [List.filterMap_map]
  apply List.filterMap_congr
  intro kv _
  simp [Function.comp, promote_promoteVal]

theorem fieldKeys_sublist (ns : NS) : List.Sublist (fieldKeys ns) (keysOf ns) := by
  induction ns with
  | nil => simp [fieldKeys, keysOf, buildAttrs]
  | cons kv rest ih =>
    simp only [fieldKeys, buildAttrs_cons] at ih ⊢
    cases promote kv.1 kv.2 with
    | none =>
      simp only [keysOf, List.map_cons]
      exact ih.cons kv.1
    | some a =>
      simp only [keysOf, List.map_cons]
      exact ih.cons₂ kv.1

theorem mem_fieldKeys_sub {ns : NS} {k : String} (h : k ∈ fieldKeys ns) :
    k ∈ keysOf ns :=
  (fieldKeys_sublist ns).mem h

theorem nodup_fieldKeys {ns : NS} (h : (keysOf ns).Nodup) : (fieldKeys ns).Nodup :=
  h.sublist (fieldKeys_sublist ns)

theorem not_mem_fieldKeys {ns : NS} {k : String} {v : Value}
    (hnd : (keysOf ns).Nodup) (hv : getVal? ns k = some v)
    (hp : promote k v = none) : k ∉ fieldKeys ns := by
  induction ns with
  | nil => simp [fieldKeys, buildAttrs]
  | cons kv rest ih =>
    obtain ⟨k0, v0⟩ := kv
    simp only [keysOf, List.map_cons, List.nodup_cons] at hnd
    by_cases he : k0 = k
    · subst he
      have hv0 : v0 = v := by simpa [getVal?] using hv
      subst hv0
      simp only [fieldKeys, buildAttrs_cons, hp]
      exact fun hmem => hnd.1 (mem_fieldKeys_sub hmem)
    · have hv' : getVal? rest k = some v := by
        simpa [getVal?, he] using hv
      have hrest := ih hnd.2 hv'
      simp only [fieldKeys, buildAttrs_cons]
      cases hps : promote k0 v0 with
      | none => exact hrest
      | some a =>
        simp only [List.map_cons]
        intro hmem
        rcases List.mem_cons.mp hmem with h1 | h2
        · exact he h1.symm
        · exact hrest h2

/-! ### Plain dictionary writes -/

theorem dSet_of_mem {m : NS} {k : String} (v : Value) (h : k ∈ keysOf m) :
    dSet m k v = m.map (fun kv => if kv.1 = k then (k, v) else kv) := by
  simp [dSet, h]

theorem dSet_of_not_mem {m : NS} {k : String} (v : Value) (h : k ∉ keysOf m) :
    dSet m k v = m ++ [(k, v)] := by
  simp [dSet, h]

theorem keysOf_dSet_of_mem {m : NS} {k : String} (v : Value) (h : k ∈ keysOf m) :
    keysOf (dSet m k v) = keysOf m := by
  rw [dSet_of_mem v h]
  simp only [keysOf, List.map_map]
  apply List.map_congr_left
  intro kv _
  by_cases he : kv.1 = k <;> simp [he]

theorem keysOf_dSet_of_not_mem {m : NS} {k : String} (v : Value) (h : k ∉ keysOf m) :
    keysOf (dSet m k v) = keysOf m ++ [k] := by
  rw [dSet_of_not_mem v h, keysOf_append]
  rfl

theorem dUpdate_nil (m : NS) : dUpdate m [] = m := rfl

theorem dUpdate_cons (m : NS) (k : String) (v : Value) (rest : NS) :
    dUpdate m ((k, v) :: rest) = dUpdate (dSet m k v) rest := rfl

theorem dUpdate_append (m a b : NS) : dUpdate m (a ++ b) = dUpdate (dUpdate m a) b := by
  simp [dUpdate]

theorem applyOverrides_nil (m : NS) : applyOverrides [] m = m := by
  unfold applyOverrides
  have : ∀ kv : String × Value,
      (match getVal? [] kv.1 with
       | some v => (kv.1, v)
       | none => kv) = kv := by
    intro kv; rfl
  simp only [this, List.map_id']

theorem applyOverrides_append_m (items a b : NS) :
    applyOverrides items (a ++ b) = applyOverrides items a ++ applyOverrides items b := by
  simp [applyOverrides]

/-- The net effect of `d.update(items)` on a dictionary, `items` having
duplicate-free keys: entries of `m` whose key `items` rebinds keep their
position with the new value; entries of `items` with fresh keys are
appended in order. -/
theorem dUpdate_eq {items : NS} (m : NS) (h : (keysOf items).Nodup) :
    dUpdate m items = applyOverrides items m ++ removeKeys items (keysOf m) := by
  induction items generalizing m with
  | nil => simp [dUpdate_nil, applyOverrides_nil, removeKeys]
  | cons kv rest ih =>
    obtain ⟨k, v⟩ := kv
    simp only [keysOf, List.map_cons, List.nodup_cons] at h
    have hk : k ∉ keysOf rest := fun hm => h.1 (by simpa [keysOf] using hm)
    rw [dUpdate_cons]
    by_cases hm : k ∈ keysOf m
    · rw [ih _ h.2, keysOf_dSet_of_mem v hm, dSet_of_mem v hm]
      congr 1
      · unfold applyOverrides
        rw [List.map_map]
        apply List.map_congr_left
        intro kv' _
        by_cases he : kv'.1 = k
        · simp [Function.comp, he, getVal?, getVal?_eq_none hk]
        · have he2 : ¬k = kv'.1 := fun hh => he hh.symm
          simp [Function.comp, he, he2, getVal?]
      · unfold removeKeys
        rw [List.filter_cons]
        simp [hm]
    · rw [ih _ h.2, keysOf_dSet_of_not_mem v hm, dSet_of_not_mem v hm,
        applyOverrides_append_m]
      have h1 : applyOverrides rest [(k, v)] = [(k, v)] := by
        unfold applyOverrides
        simp [getVal?_eq_none hk]
      have h2 : applyOverrides rest m = applyOverrides ((k, v) :: rest) m := by
        unfold applyOverrides
        apply List.map_congr_left
        intro kv' hkv'
        have he : kv'.1 ≠ k := fun he => hm (he ▸ mem_keysOf_of_mem hkv')
        have he2 : ¬k = kv'.1 := fun hh => he hh.symm
        simp [getVal?, he, he2]
      have h3 : removeKeys rest (keysOf m ++ [k]) = removeKeys rest (keysOf m) := by
        unfold removeKeys
        apply List.filter_congr
        intro kv' hkv'
        have he : kv'.1 ≠ k := fun he => hk (he ▸ mem_keysOf_of_mem hkv')
        simp [he]
      have h4 : removeKeys ((k, v) :: rest) (keysOf m) = (k, v) :: removeKeys rest (keysOf m) := by
        unfold removeKeys
        rw [List.filter_cons]
        simp [hm]
      rw [h1, h2, h3, h4, List.append_assoc]
      rfl

/-! ### `applyOverrides` computations -/

theorem applyOverrides_of_none {items m : NS}
    (h : ∀ kv ∈ m, getVal? items kv.1 = none) : applyOverrides items m = m := by
  unfold applyOverrides
  conv_rhs => rw [← List.map_id m]
  apply List.map_congr_left
  intro kv hkv
  simp [h kv hkv]

theorem applyOverrides_self {sup m : NS} (hnd : (keysOf m).Nodup)
    (h : ∀ k ∈ keysOf m, getVal? sup k = getVal? m k) : applyOverrides sup m = m := by
  unfold applyOverrides
  conv_rhs => rw [← List.map_id m]
  apply List.map_congr_left
  intro kv hkv
  obtain ⟨a, b⟩ := kv
  have h1 : getVal? sup a = some b := by
    rw [h a (mem_keysOf_of_mem hkv)]
    exact getVal?_of_mem hnd hkv
  simp [h1]

theorem getVal?_promoteNS (m : NS) (k : String) :
    getVal? (promoteNS m) k = (getVal? m k).map (fun v => promoteVal k v) := by
  induction m with
  | nil => rfl
  | cons kv rest ih =>
    obtain ⟨a, b⟩ := kv
    by_cases he : a = k
    · subst he
      simp [promoteNS, getVal?]
    · simp only [promoteNS, List.map_cons, getVal?, he, if_neg he] at ih ⊢
      exact ih

theorem applyOverrides_promote {sup m : NS} (hnd : (keysOf m).Nodup)
    (h : ∀ k ∈ keysOf m, getVal? sup k = getVal? (promoteNS m) k) :
    applyOverrides sup m = promoteNS m := by
  unfold applyOverrides promoteNS
  apply List.map_congr_left
  intro kv hkv
  obtain ⟨a, b⟩ := kv
  have h1 : getVal? sup a = some (promoteVal a b) := by
    rw [h a (mem_keysOf_of_mem hkv), getVal?_promoteNS, getVal?_of_mem hnd hkv]
    rfl
  simp [h1]

theorem applyOverrides_promoteNS_orig {sup m : NS} (hnd : (keysOf m).Nodup)
    (h : ∀ k ∈ keysOf m, getVal? sup k = getVal? m k) :
    applyOverrides sup (promoteNS m) = m := by
  unfold applyOverrides promoteNS
  rw [List.map_map]
  conv_rhs => rw [← List.map_id m]
  apply List.map_congr_left
  intro kv hkv
  obtain ⟨a, b⟩ := kv
  have h1 : getVal? sup a = some b := by
    rw [h a (mem_keysOf_of_mem hkv)]
    exact getVal?_of_mem hnd hkv
  simp [Function.comp, h1]

theorem keysOf_attrsNS (ns : NS) :
    keysOf ((buildAttrs ns).map (fun p => (p.1, Value.aliasV p.2))) = fieldKeys ns := by
  simp only [keysOf, fieldKeys, List.map_map]
  apply List.map_congr_left
  intro p _
  rfl

theorem getVal?_attrsNS {ns : NS} {k : String} {v : Value}
    (hnd : (keysOf ns).Nodup) (hv : getVal? ns k = some v) :
    getVal? ((buildAttrs ns).map (fun p => (p.1, Value.aliasV p.2))) k
      = (promote k v).map Value.aliasV := by
  induction ns with
  | nil => simp [getVal?] at hv
  | cons kv rest ih =>
    obtain ⟨a, b⟩ := kv
    simp only [keysOf, List.map_cons, List.nodup_cons] at hnd
    by_cases he : a = k
    · subst he
      have hbv : b = v := by simpa [getVal?] using hv
      subst hbv
      rw [buildAttrs_cons]
      cases hp : promote a b with
      | some x => simp [getVal?]
      | none =>
        simp only []
        rw [getVal?_eq_none]
        · rfl
        · rw [keysOf_attrsNS]
          exact fun hmem => hnd.1 (mem_fieldKeys_sub hmem)
    · have hv' : getVal? rest k = some v := by simpa [getVal?, he] using hv
      have ihr := ih hnd.2 hv'
      rw [buildAttrs_cons]
      cases hp : promote a b with
      | some x => simpa [getVal?, he] using ihr
      | none => simpa using ihr

theorem applyOverrides_attrsNS {ns : NS} (hnd : (keysOf ns).Nodup) :
    applyOverrides ((buildAttrs ns).map (fun p => (p.1, Value.aliasV p.2))) ns
      = promoteNS ns := by
  unfold applyOverrides promoteNS
  apply List.map_congr_left
  intro kv hkv
  obtain ⟨a, b⟩ := kv
  have h1 := getVal?_attrsNS hnd (getVal?_of_mem hnd hkv)
  rw [h1]
  unfold promoteVal
  cases promote a b <;> rfl

/-! ### The class dictionary of a base-less build -/

theorem buildNamespace_nil (ns : NS) (h1 : (keysOf ns).Nodup) :
    buildNamespace [] ns = ns := by
  unfold buildNamespace
  rw [List.foldl_nil, mergeItems_eq _ h1, removeKeys_nil, List.nil_append]

theorem reserved_of_internal {k : String} (h : k ∈ keysOf bundleInitEntries) :
    k ∈ reservedKeys :=
  List.mem_cons_of_mem _ h

theorem bundleMetaInit_attrs (n : String) (ds : List NS) (body : NS) :
    (bundleMetaInit n ds body).attrs = buildAttrs (buildNamespace ds body) := rfl

theorem fieldNames_bundleMetaInit (n : String) (ds : List NS) (body : NS) :
    fieldNames (bundleMetaInit n ds body) = fieldKeys (buildNamespace ds body) := rfl

theorem bundleMetaInit_attrs_nil (n : String) (ns : NS) (h1 : (keysOf ns).Nodup) :
    (bundleMetaInit n [] ns).attrs = buildAttrs ns := by
  rw [bundleMetaInit_attrs, buildNamespace_nil ns h1]

theorem fieldNames_bundleMetaInit_nil (n : String) (ns : NS) (h1 : (keysOf ns).Nodup) :
    fieldNames (bundleMetaInit n [] ns) = fieldKeys ns := by
  rw [fieldNames_bundleMetaInit, buildNamespace_nil ns h1]

theorem bundleMetaInit_clsDict_nil (n : String) (ns : NS)
    (h1 : (keysOf ns).Nodup)
    (h2 : ∀ k ∈ keysOf ns, k ∉ reservedKeys) :
    (bundleMetaInit n [] ns).clsDict = promoteNS ns ++ resvEntries := by
  have hmerged : buildNamespace [] ns = ns := buildNamespace_nil ns h1
  have hMangled : mangledKey ∉ keysOf ns := fun hm => (h2 _ hm) (by decide)
  have hKeysResv : keysOf resvEntries = reservedKeys := rfl
  have hNodupResv : reservedKeys.Nodup := by decide
  have hdict1 : dSet ns mangledKey (Value.plain 0) = ns ++ [(mangledKey, Value.plain 0)] :=
    dSet_of_not_mem _ hMangled
  have hdict2 : dUpdate (ns ++ [(mangledKey, Value.plain 0)]) bundleInitEntries
      = ns ++ resvEntries := by
    rw [dUpdate_eq _ (by decide)]
    have hA : ∀ kv ∈ ns ++ [(mangledKey, Value.plain 0)],
        getVal? bundleInitEntries kv.1 = none := by
      intro kv hkv
      apply getVal?_eq_none
      rcases List.mem_append.mp hkv with hin | hin
      · intro hmem
        exact (h2 _ (mem_keysOf_of_mem hin)) (reserved_of_internal hmem)
      · have hkv1 : kv = (mangledKey, Value.plain 0) := by simpa using hin
        subst hkv1
        decide
    have hB : ∀ kv ∈ bundleInitEntries,
        kv.1 ∉ keysOf (ns ++ [(mangledKey, Value.plain 0)]) := by
      intro kv hkv
      rw [keysOf_append]
      intro hmem
      rcases List.mem_append.mp hmem with hin | hin
      · exact (h2 _ hin) (reserved_of_internal (mem_keysOf_of_mem hkv))
      · have hne : ∀ kv' ∈ bundleInitEntries, kv'.1 ≠ mangledKey := by decide
        have heq : kv.1 = mangledKey := by simpa [keysOf] using hin
        exact hne kv hkv heq
    rw [applyOverrides_of_none hA, removeKeys_eq_self hB, List.append_assoc]
    rfl
  have hKeysDict2 : keysOf (ns ++ resvEntries) = keysOf ns ++ reservedKeys := by
    rw [keysOf_append, hKeysResv]
  have hNodupDict2 : (keysOf (ns ++ resvEntries)).Nodup := by
    rw [hKeysDict2]
    exact List.Nodup.append h1 hNodupResv (fun a ha hb => (h2 a ha) hb)
  have hResvNotInNs : ∀ kv ∈ resvEntries, kv.1 ∉ keysOf ns := by
    intro kv hkv hmem
    exact (h2 _ hmem) (hKeysResv ▸ mem_keysOf_of_mem hkv)
  have hns2 : dUpdate (promoteNS ns) (ns ++ resvEntries) = ns ++ resvEntries := by
    rw [dUpdate_eq _ hNodupDict2, keysOf_promoteNS]
    have hL : applyOverrides (ns ++ resvEntries) (promoteNS ns) = ns := by
      apply applyOverrides_promoteNS_orig h1
      intro k hk
      exact getVal?_append_left _ hk
    have hR : removeKeys (ns ++ resvEntries) (keysOf ns) = resvEntries := by
      rw [removeKeys_append]
      rw [removeKeys_eq_nil (fun kv hkv => mem_keysOf_of_mem hkv),
        removeKeys_eq_self hResvNotInNs, List.nil_append]
    rw [hL, hR]
  have hKeysAttrs : keysOf ((buildAttrs ns).map (fun p => (p.1, Value.aliasV p.2)))
      = fieldKeys ns := keysOf_attrsNS ns
  have hNodupAttrs : (keysOf ((buildAttrs ns).map (fun p => (p.1, Value.aliasV p.2)))).Nodup := by
    rw [hKeysAttrs]
    exact nodup_fieldKeys h1
  have hns3 : dUpdate (ns ++ resvEntries)
      ((buildAttrs ns).map (fun p => (p.1, Value.aliasV p.2)))
      = promoteNS ns ++ resvEntries := by
    rw [dUpdate_eq _ hNodupAttrs, applyOverrides_append_m]
    have hL : applyOverrides ((buildAttrs ns).map (fun p => (p.1, Value.aliasV p.2))) ns
        = promoteNS ns := applyOverrides_attrsNS h1
    have hM : applyOverrides ((buildAttrs ns).map (fun p => (p.1, Value.aliasV p.2)))
        resvEntries = resvEntries := by
      apply applyOverrides_of_none
      intro kv hkv
      apply getVal?_eq_none
      rw [hKeysAttrs]
      intro hmem
      exact hResvNotInNs kv hkv (mem_fieldKeys_sub hmem)
    have hR : removeKeys ((buildAttrs ns).map (fun p => (p.1, Value.aliasV p.2)))
        (keysOf (ns ++ resvEntries)) = [] := by
      apply removeKeys_eq_nil
      intro kv hkv
      rw [keysOf_append]
      apply List.mem_append.mpr
      left
      exact mem_fieldKeys_sub (hKeysAttrs ▸ mem_keysOf_of_mem hkv)
    rw [hL, hM, hR, List.append_nil]
  have hKeysNs3 : keysOf (promoteNS ns ++ resvEntries) = keysOf ns ++ reservedKeys := by
    rw [keysOf_append, keysOf_promoteNS, hKeysResv]
  have hNodupNs3 : (keysOf (promoteNS ns ++ resvEntries)).Nodup := by
    rw [hKeysNs3]
    exact List.Nodup.append h1 hNodupResv (fun a ha hb => (h2 a ha) hb)
  have hdict3 : dUpdate (ns ++ resvEntries) (promoteNS ns ++ resvEntries)
      = promoteNS ns ++ resvEntries := by
    rw [dUpdate_eq _ hNodupNs3, applyOverrides_append_m]
    have hL : applyOverrides (promoteNS ns ++ resvEntries) ns = promoteNS ns := by
      apply applyOverrides_promote h1
      intro k hk
      have : k ∈ keysOf (promoteNS ns) := by rw [keysOf_promoteNS]; exact hk
      exact getVal?_append_left _ this
    have hM : applyOverrides (promoteNS ns ++ resvEntries) resvEntries = resvEntries := by
      apply applyOverrides_self (hKeysResv ▸ hNodupResv)
      intro k hk
      apply getVal?_append_right
      rw [keysOf_promoteNS]
      intro hmem
      exact (h2 _ hmem) (hKeysResv ▸ hk)
    have hR : removeKeys (promoteNS ns ++ resvEntries) (keysOf (ns ++ resvEntries)) = [] := by
      apply removeKeys_eq_nil
      intro kv hkv
      rw [keysOf_append, hKeysResv]
      have := mem_keysOf_of_mem hkv
      rw [keysOf_append, keysOf_promoteNS, hKeysResv] at this
      exact this
    rw [hL, hM, hR, List.append_nil]
  simp only [bundleMetaInit]
  rw [hmerged, hdict1, hdict2, hns2, hns3, hdict3]

/-! ### Merging the class dictionaries of base-less builds -/

theorem buildAttrs_resv : buildAttrs resvEntries = [] := rfl

theorem buildAttrs_join (L : List NS) : buildAttrs L.flatten = (L.map buildAttrs).flatten := by
  induction L with
  | nil => rfl
  | cons a rest ih => simp [buildAttrs_append, ih]

theorem buildAttrs_join_promote (rest : List NS) :
    buildAttrs ((rest.map promoteNS).flatten) = (rest.map buildAttrs).flatten := by
  rw [buildAttrs_join, List.map_map]
  congr 1
  apply List.map_congr_left
  intro ns _
  exact buildAttrs_promoteNS ns

theorem keys_mem_join_promote {rest : List NS} {kv : String × Value}
    (h : kv ∈ ((rest.map promoteNS).flatten)) : kv.1 ∈ ((rest.map keysOf).flatten) := by
  rw [List.mem_flatten] at h
  obtain ⟨l, hl, hkv⟩ := h
  rw [List.mem_map] at hl
  obtain ⟨ns, hns, rfl⟩ := hl
  rw [List.mem_flatten]
  refine ⟨keysOf ns, List.mem_map.mpr ⟨ns, hns, rfl⟩, ?_⟩
  have := mem_keysOf_of_mem hkv
  rwa [keysOf_promoteNS] at this

theorem foldl_merge_flat (bs : List NS) (acc : NS)
    (h1 : (keysOf acc ++ (bs.map keysOf).flatten).Nodup)
    (h2 : ∀ k ∈ keysOf acc ++ (bs.map keysOf).flatten, k ∉ reservedKeys) :
    (bs.map (fun ns => promoteNS ns ++ resvEntries)).foldl mergeItems (acc ++ resvEntries)
      = acc ++ (bs.map promoteNS).flatten ++ resvEntries := by
  induction bs generalizing acc with
  | nil => simp
  | cons ns rest ih =>
    simp only [List.map_cons, List.flatten_cons] at h1 h2 ⊢
    rw [List.foldl_cons]
    have hNodupResv : reservedKeys.Nodup := by decide
    have hnsN : (keysOf ns).Nodup := (h1.of_append_right).of_append_left
    have hnsResv : ∀ k ∈ keysOf ns, k ∉ reservedKeys := fun k hk =>
      h2 k (List.mem_append.mpr (Or.inr (List.mem_append.mpr (Or.inl hk))))
    have hkeys_fns : keysOf (promoteNS ns ++ resvEntries) = keysOf ns ++ reservedKeys := by
      rw [keysOf_append, keysOf_promoteNS]
      rfl
    have hNodup_fns : (keysOf (promoteNS ns ++ resvEntries)).Nodup := by
      rw [hkeys_fns]
      exact List.Nodup.append hnsN hNodupResv (fun a ha hb => hnsResv a ha hb)
    have hstep : mergeItems (acc ++ resvEntries) (promoteNS ns ++ resvEntries)
        = (acc ++ promoteNS ns) ++ resvEntries := by
      rw [mergeItems_eq _ hNodup_fns, hkeys_fns, removeKeys_append]
      have hacc : removeKeys acc (keysOf ns ++ reservedKeys) = acc := by
        apply removeKeys_eq_self
        intro kv hkv hmem
        rcases List.mem_append.mp hmem with hin | hin
        · exact (List.disjoint_of_nodup_append h1) (mem_keysOf_of_mem hkv)
            (List.mem_append.mpr (Or.inl hin))
        · exact h2 _ (List.mem_append.mpr (Or.inl (mem_keysOf_of_mem hkv))) hin
      have hresv : removeKeys resvEntries (keysOf ns ++ reservedKeys) = [] := by
        apply removeKeys_eq_nil
        intro kv hkv
        exact List.mem_append.mpr (Or.inr (mem_keysOf_of_mem hkv))
      rw [hacc, hresv, List.append_nil]
      rw [← List.append_assoc]
    rw [hstep, ih (acc ++ promoteNS ns)]
    · simp [List.append_assoc]
    · rw [keysOf_append, keysOf_promoteNS, List.append_assoc]
      exact h1
    · intro k hk
      apply h2 k
      rw [keysOf_append, keysOf_promoteNS, List.append_assoc] at hk
      exact hk

theorem buildAttrs_flat (bs : List NS) (body : NS)
    (h1 : ((bs.map keysOf).flatten ++ keysOf body).Nodup)
    (h2 : ∀ k ∈ (bs.map keysOf).flatten ++ keysOf body, k ∉ reservedKeys) :
    buildAttrs (buildNamespace (bs.map (fun ns => promoteNS ns ++ resvEntries)) body)
      = (bs.map buildAttrs).flatten ++ buildAttrs body := by
  have hbodyN : (keysOf body).Nodup := h1.of_append_right
  cases bs with
  | nil =>
    rw [List.map_nil, buildNamespace_nil body hbodyN]
    simp
  | cons ns rest =>
    simp only [List.map_cons, List.flatten_cons] at h1 h2 ⊢
    unfold buildNamespace
    rw [List.foldl_cons]
    have hNodupResv : reservedKeys.Nodup := by decide
    have hnsN : (keysOf ns).Nodup := (h1.of_append_left).of_append_left
    have hnsResv : ∀ k ∈ keysOf ns, k ∉ reservedKeys := fun k hk =>
      h2 k (List.mem_append.mpr (Or.inl (List.mem_append.mpr (Or.inl hk))))
    have hkeys_fns : keysOf (promoteNS ns ++ resvEntries) = keysOf ns ++ reservedKeys := by
      rw [keysOf_append, keysOf_promoteNS]
      rfl
    have hNodup_fns : (keysOf (promoteNS ns ++ resvEntries)).Nodup := by
      rw [hkeys_fns]
      exact List.Nodup.append hnsN hNodupResv (fun a ha hb => hnsResv a ha hb)
    have hfirst : mergeItems [] (promoteNS ns ++ resvEntries) = promoteNS ns ++ resvEntries := by
      rw [mergeItems_eq _ hNodup_fns, removeKeys_nil, List.nil_append]
    rw [hfirst, foldl_merge_flat rest (promoteNS ns)]
    · have hinner : mergeItems (promoteNS ns ++ (rest.map promoteNS).flatten ++ resvEntries) body
          = promoteNS ns ++ (rest.map promoteNS).flatten ++ resvEntries ++ body := by
        rw [mergeItems_eq _ hbodyN]
        congr 1
        rw [removeKeys_append, removeKeys_append]
        have hd := List.disjoint_of_nodup_append h1
        have hA : removeKeys (promoteNS ns) (keysOf body) = promoteNS ns := by
          apply removeKeys_eq_self
          intro kv hkv hmem
          have hk := mem_keysOf_of_mem hkv
          rw [keysOf_promoteNS] at hk
          exact hd (List.mem_append.mpr (Or.inl hk)) hmem
        have hB : removeKeys ((rest.map promoteNS).flatten) (keysOf body)
            = (rest.map promoteNS).flatten := by
          apply removeKeys_eq_self
          intro kv hkv hmem
          exact hd (List.mem_append.mpr (Or.inr (keys_mem_join_promote hkv))) hmem
        have hC : removeKeys resvEntries (keysOf body) = resvEntries := by
          apply removeKeys_eq_self
          intro kv hkv hmem
          exact h2 _ (List.mem_append.mpr (Or.inr hmem)) (mem_keysOf_of_mem hkv)
        rw [hA, hB, hC]
      rw [hinner]
      rw [buildAttrs_append, buildAttrs_append, buildAttrs_append, buildAttrs_resv,
        buildAttrs_promoteNS, buildAttrs_join_promote]
      simp
    · rw [keysOf_promoteNS]
      exact h1.of_append_left
    · intro k hk
      rw [keysOf_promoteNS] at hk
      exact h2 k (List.mem_append.mpr (Or.inl hk))

theorem nodup_keysOf_foldl_mergeItems (ds : List NS) :
    (keysOf (ds.foldl mergeItems [])).Nodup := by
  induction ds using List.reverseRecOn with
  | nil => simp [keysOf]
  | append_singleton ds d ih =>
    rw [List.foldl_append]
    exact nodup_keysOf_mergeItems ih

theorem mem_keysOf_of_getVal? {m : NS} {k : String} {v : Value}
    (h : getVal? m k = some v) : k ∈ keysOf m := by
  induction m with
  | nil => simp [getVal?] at h
  | cons kv rest ih =>
    by_cases he : kv.1 = k
    · subst he
      exact List.mem_cons_self _ _
    · simp only [getVal?, if_neg he] at h
      exact List.mem_cons_of_mem _ (ih h)

theorem getVal?_mergeItems_body {acc body : NS} {k : String} {v : Value}
    (hbody : (keysOf body).Nodup) (hv : getVal? body k = some v) :
    getVal? (mergeItems acc body) k = some v := by
  rw [mergeItems_eq _ hbody]
  have hk : k ∈ keysOf body := mem_keysOf_of_getVal? hv
  have hnot : k ∉ keysOf (removeKeys acc (keysOf body)) := by
    rw [keysOf_removeKeys]
    intro hmem
    have := List.of_mem_filter hmem
    simp only [decide_eq_true_eq] at this
    exact this hk
  rw [getVal?_append_right _ hnot]
  exact hv

/-! ### Demonstration inputs used by the concrete theorems -/

def opInt (p : Nat) : Value := .opExpr true (some "int") p
def opStr (p : Nat) : Value := .opExpr true (some "str") p
def opBool (p : Nat) : Value := .opExpr true (some "bool") p

/-- A base-less definition with the single field `a`. -/
def demoB : BuiltDef := bundleMetaInit "B" [] [("a", opInt 1)]

/-- A definition derived from `demoB` adding the field `x`:
its own field order is `[a, x]`. -/
def demoD : BuiltDef := build "D" [demoB] [("x", opInt 2)]

/-! ### C1 -/

/-- C1, counterexample.  The claim says: for every build with field names
all distinct across the bases and the body, the field order is the
concatenation of each base's own field order (left to right) followed by
the body's declarations.  `demoD` has field order `[a, x]`, and the field
names of the build from base `demoD` and body `{c0}` are all distinct, so
the claim predicts `[a, x, c0]`; but because `BundleMeta.__init__` merges
`base.__dict__` — in which `demoD`'s own body key `x` (set by
`type.__new__`) precedes the inherited key `a` (set by a later `setattr`)
— the code produces `[x, a, c0]`. -/
theorem c1_counterexample :
    fieldNames demoD = ["a", "x"] ∧
    fieldNames (build "E" [demoD] [("c0", opInt 3)]) = ["x", "a", "c0"] ∧
    fieldNames (build "E" [demoD] [("c0", opInt 3)]) ≠ fieldNames demoD ++ ["c0"] := by
  refine ⟨by decide, by decide, by decide⟩

/-- C1, amended: for every build whose bases were each built with no bases
of their own, with namespace keys all distinct across the bases and the
body and none equal to a builder bookkeeping key, the resulting field
order is exactly the concatenation of each base's own field order, bases
left to right, followed by the body's declarations in declaration order.
(For a base built from its own bases the concatenation law fails, because
the base's class dictionary lists its own body fields before its inherited
fields — see the counterexample.) -/
theorem c1_order_concat_flat_bases (nm : String) (bs : List (String × NS)) (body : NS)
    (h1 : ((bs.map (fun p => keysOf p.2)).flatten ++ keysOf body).Nodup)
    (h2 : ∀ k ∈ (bs.map (fun p => keysOf p.2)).flatten ++ keysOf body, k ∉ reservedKeys) :
    fieldNames (build nm (bs.map (fun p => bundleMetaInit p.1 [] p.2)) body)
      = ((bs.map (fun p => bundleMetaInit p.1 [] p.2)).map fieldNames).flatten
        ++ fieldKeys body := by
  have hflatN : ((bs.map (fun p => keysOf p.2)).flatten).Nodup := h1.of_append_left
  have hperP : ∀ p ∈ bs, (keysOf p.2).Nodup := by
    intro p hp
    have hsub : List.Sublist (keysOf p.2) ((bs.map (fun p => keysOf p.2)).flatten) :=
      List.sublist_flatten_of_mem (List.mem_map.mpr ⟨p, hp, rfl⟩)
    exact hflatN.sublist hsub
  have hperR : ∀ p ∈ bs, ∀ k ∈ keysOf p.2, k ∉ reservedKeys := by
    intro p hp k hk
    apply h2
    apply List.mem_append.mpr
    left
    exact List.mem_flatten.mpr ⟨keysOf p.2, List.mem_map.mpr ⟨p, hp, rfl⟩, hk⟩
  have hdicts : (bs.map (fun p => bundleMetaInit p.1 [] p.2)).map (·.clsDict)
      = (bs.map Prod.snd).map (fun ns => promoteNS ns ++ resvEntries) := by
    rw [List.map_map, List.map_map]
    apply List.map_congr_left
    intro p hp
    exact bundleMetaInit_clsDict_nil p.1 p.2 (hperP p hp) (hperR p hp)
  unfold build
  rw [fieldNames_bundleMetaInit, hdicts]
  unfold fieldKeys
  rw [buildAttrs_flat (bs.map Prod.snd) body]
  · rw [List.map_append, List.map_flatten, List.map_map, List.map_map, List.map_map]
    congr 1
    congr 1
    apply List.map_congr_left
    intro p hp
    have : fieldNames (bundleMetaInit p.1 [] p.2) = fieldKeys p.2 :=
      fieldNames_bundleMetaInit_nil p.1 p.2 (hperP p hp)
    exact ((this.symm.trans (by rfl)) : _)
  · rw [List.map_map]
    exact h1
  · rw [List.map_map]
    exact h2

/-- C1, amended, witness: two base-less bases with fields `[a]` and `[b]`
and a body `{x, y}`, all names distinct: the field order is
`[a, b, x, y]`. -/
theorem c1_amended_witness :
    fieldNames (build "C"
        [bundleMetaInit "B1" [] [("a", opInt 1)],
         bundleMetaInit "B2" [] [("b", opStr 2)]]
        [("x", opInt 3), ("y", opBool 4)])
      = ["a", "b", "x", "y"] := by
  have h := c1_order_concat_flat_bases "C"
      [("B1", [("a", opInt 1)]), ("B2", [("b", opStr 2)])]
      [("x", opInt 3), ("y", opBool 4)]
      (by decide) (by decide)
  exact h.trans (by decide)

/-! ### C2 -/

/-- C2: in every finalized definition the field names are unique; and on
the spec's two examples over a base with fields `[a, b]`: a body
`{a: new, c: v}` yields field order `[b, a, c]` with `a` bound to the new
value, while a body `{b: new}` yields `[a, b]` with `b` bound to the new
value (the value of the last write wins and a redeclared name moves to
the end of the ordered field list). -/
theorem c2_last_write_wins :
    (∀ (nm : String) (ds : List NS) (body : NS),
        (fieldNames (bundleMetaInit nm ds body)).Nodup)
    ∧ (build "D" [bundleMetaInit "B" [] [("a", opInt 1), ("b", opStr 2)]]
        [("a", opInt 9), ("c", opInt 3)]).attrs
      = [("b", ⟨"b", some "str", 2⟩), ("a", ⟨"a", some "int", 9⟩),
         ("c", ⟨"c", some "int", 3⟩)]
    ∧ (build "D" [bundleMetaInit "B" [] [("a", opInt 1), ("b", opStr 2)]]
        [("b", opStr 9)]).attrs
      = [("a", ⟨"a", some "int", 1⟩), ("b", ⟨"b", some "str", 9⟩)] := by
  refine ⟨?_, by decide, by decide⟩
  intro nm ds body
  rw [fieldNames_bundleMetaInit]
  exact nodup_fieldKeys (nodup_keysOf_buildNamespace ds body)

/-! ### C3 -/

/-- C3: if the body of a build assigns a key a value that is neither a
tagged query-expression (an `Operators` with a `_label`) nor an `Alias`,
that key is absent from the finalized field list, whatever the bases
declare for it; the build itself still succeeds (the builder is a total
function). -/
theorem c3_override_to_remove (nm : String) (baseDicts : List NS) (body : NS)
    (f : String) (v : Value)
    (hbody : (keysOf body).Nodup)
    (hv : getVal? body f = some v)
    (hp : promote f v = none) :
    f ∉ fieldNames (bundleMetaInit nm baseDicts body) := by
  rw [fieldNames_bundleMetaInit]
  unfold buildNamespace
  have hnd : (keysOf (mergeItems (baseDicts.foldl mergeItems []) body)).Nodup :=
    nodup_keysOf_mergeItems (nodup_keysOf_foldl_mergeItems baseDicts)
  exact not_mem_fieldKeys hnd (getVal?_mergeItems_body hbody hv) hp

/-- C3, witness: base-less definition `B` has the single field `f`; a
build from base `B` whose body rebinds `f` to a plain value produces a
definition whose field list does not contain `f`. -/
theorem c3_witness :
    fieldNames (bundleMetaInit "B" [] [("f", opInt 1)]) = ["f"]
    ∧ "f" ∉ fieldNames (build "D" [bundleMetaInit "B" [] [("f", opInt 1)]]
        [("f", Value.plain 7)]) :=
  ⟨by decide,
   c3_override_to_remove "D" [(bundleMetaInit "B" [] [("f", opInt 1)]).clsDict]
     [("f", Value.plain 7)] "f" (Value.plain 7) (by decide) (by decide) (by decide)⟩

/-! ### C4 -/

theorem bundleResultNew_names (d : BuiltDef) :
    (bundleResultNew d).map Prod.fst = fieldNames d := by
  unfold bundleResultNew fieldNames
  rw [List.map_map]
  apply List.map_congr_left
  intro p _
  rfl

/-- A three-field definition used by the decode examples. -/
def demoT3 : BuiltDef :=
  bundleMetaInit "T" [] [("a", opInt 1), ("b", opStr 2), ("c", opBool 3)]

theorem decode_ok_eq {d : BuiltDef} {raw : List PyVal} {r : List (String × PyVal)}
    (hr : decode d raw = .ok r) :
    r.map Prod.fst = fieldNames d ∧ r.map Prod.snd = raw := by
  unfold decode namedTupleNew at hr
  rw [bundleResultNew_names] at hr
  by_cases h : raw.length = (fieldNames d).length
  · rw [if_pos h] at hr
    have hr' : r = (fieldNames d).zip raw := by
      injection hr with hr'
      exact hr'.symm
    subst hr'
    constructor
    · exact List.map_fst_zip _ _ (le_of_eq h.symm)
    · exact List.map_snd_zip _ _ (le_of_eq h)
  · rw [if_neg h] at hr
    exact absurd hr (by simp)

/-- C4: for a definition with `n` fields, decoding a raw row succeeds
exactly when the row has `n` values, in which case the result binds the
definition's field names, in the definition's order, to the raw values
positionally; a row of any other length yields the shape-mismatch error
(and no record at all). -/
theorem c4_decode_arity (d : BuiltDef) (raw : List PyVal) :
    (raw.length = d.attrs.length →
      decode d raw = .ok ((fieldNames d).zip raw))
    ∧ (raw.length ≠ d.attrs.length → decode d raw = .error .shapeMismatch)
    ∧ (∀ r, decode d raw = .ok r →
        r.map Prod.fst = fieldNames d ∧ r.map Prod.snd = raw) := by
  have hlen : (fieldNames d).length = d.attrs.length := by
    simp [fieldNames]
  unfold decode namedTupleNew
  rw [bundleResultNew_names]
  refine ⟨?_, ?_, ?_⟩
  · intro h
    rw [if_pos (h.trans hlen.symm)]
  · intro h
    rw [if_neg (fun he => h (he.trans hlen))]
  · intro r hr
    exact decode_ok_eq (by unfold decode namedTupleNew; rw [bundleResultNew_names]; exact hr)

/-- C4, witness: on the three-field definition `demoT3`, a three-value row
decodes to the ordered record and a two-value row fails with the shape
mismatch. -/
theorem c4_witness :
    decode demoT3 [.vInt 10, .vStr "x", .vBool true]
      = .ok [("a", .vInt 10), ("b", .vStr "x"), ("c", .vBool true)]
    ∧ decode demoT3 [.vInt 10, .vStr "x"] = .error .shapeMismatch :=
  ⟨((c4_decode_arity demoT3 [.vInt 10, .vStr "x", .vBool true]).1 (by decide)).trans rfl,
   (c4_decode_arity demoT3 [.vInt 10, .vStr "x"]).2.1 (by decide)⟩

/-! ### C5 -/

/-- A definition with a field whose value type cannot be determined
(`python_type` raises) and a typed field. -/
def demoAny : BuiltDef :=
  bundleMetaInit "A" [] [("u", Value.opExpr true none 5), ("w", opInt 6)]

/-- C5: the derived row decoder has exactly the definition's field names
in the definition's order; a field whose value type cannot be determined
is annotated `Any`; and decoding passes raw values through unchanged — no
runtime type checking or coercion. -/
theorem c5_row_decoder_aligned (d : BuiltDef) :
    (bundleResultNew d).map Prod.fst = fieldNames d
    ∧ (∀ k a, (k, a) ∈ d.attrs → a.pyType = none →
        (k, PyAnnot.anyType) ∈ bundleResultNew d)
    ∧ (∀ raw r, decode d raw = .ok r → r.map Prod.snd = raw) := by
  refine ⟨bundleResultNew_names d, ?_, ?_⟩
  · intro k a hmem hty
    unfold bundleResultNew
    have : (k, PyAnnot.anyType) = (fun p : String × AliasV => (p.1, aliasAnnot p.2)) (k, a) := by
      simp [aliasAnnot, hty]
    rw [this]
    exact List.mem_map_of_mem _ hmem
  · intro raw r hr
    exact (decode_ok_eq hr).2

/-- C5, witness: on `demoAny` the decoder names are `[u, w]` in order, the
undeterminable field `u` is annotated `Any`, and a decoded record's values
are the raw values unchanged. -/
theorem c5_witness :
    (bundleResultNew demoAny).map Prod.fst = ["u", "w"]
    ∧ ("u", PyAnnot.anyType) ∈ bundleResultNew demoAny
    ∧ [("u", PyVal.vInt 1), ("w", PyVal.vStr "s")].map Prod.snd
      = [PyVal.vInt 1, PyVal.vStr "s"] :=
  ⟨((c5_row_decoder_aligned demoAny).1).trans (by decide),
   (c5_row_decoder_aligned demoAny).2.1 "u" ⟨"u", none, 5⟩ (by decide) rfl,
   (c5_row_decoder_aligned demoAny).2.2 [PyVal.vInt 1, PyVal.vStr "s"]
     [("u", PyVal.vInt 1), ("w", PyVal.vStr "s")] rfl⟩

/-! ### C6 -/

/-- C6, counterexample.  The claim says the row decoder is generated
exactly once per definition and reused.  But `create_row_processor`
executes `BundleResult(cls)` on every call with no cache: starting from
zero generated decoder classes, two calls on the same definition allocate
two decoder classes, not one. -/
theorem c6_counterexample :
    (createRowProcessor demoT3 ((createRowProcessor demoT3 0).2)).2 = 2
    ∧ ¬(2 ≤ 1) :=
  ⟨rfl, by decide⟩

/-- C6, amended: the row decoder derived by `create_row_processor` is a
deterministic function of the definition — every call returns the same
(name, type) sequence — but it is derived anew on every call
(`BundleResult(cls)` allocates a fresh decoder class each time); nothing
is cached. -/
theorem c6_decoder_rederived (d : BuiltDef) (c1 c2 : Nat) :
    (createRowProcessor d c1).1 = bundleResultNew d
    ∧ (createRowProcessor d c2).1 = (createRowProcessor d c1).1
    ∧ (createRowProcessor d c1).2 = c1 + 1 :=
  ⟨rfl, rfl, rfl⟩

/-! ### C7 -/

/-- C7: construction is a pure function of `(name, bases, body)`: two
definitions built from the same input have identical field lists, field
order, decoder annotations — indeed they are equal. -/
theorem c7_deterministic_build (nm : String) (ds : List NS) (body : NS)
    (d1 d2 : BuiltDef)
    (h1 : d1 = bundleMetaInit nm ds body) (h2 : d2 = bundleMetaInit nm ds body) :
    d1.attrs = d2.attrs ∧ fieldNames d1 = fieldNames d2
    ∧ bundleResultNew d1 = bundleResultNew d2 ∧ d1 = d2 := by
  subst h1
  subst h2
  exact ⟨rfl, rfl, rfl, rfl⟩

/-- C7, witness: two builds of the same concrete input coincide. -/
theorem c7_witness :
    (bundleMetaInit "T" [] [("a", opInt 1)]).attrs
        = (bundleMetaInit "T" [] [("a", opInt 1)]).attrs
    ∧ fieldNames (bundleMetaInit "T" [] [("a", opInt 1)])
        = fieldNames (bundleMetaInit "T" [] [("a", opInt 1)])
    ∧ bundleResultNew (bundleMetaInit "T" [] [("a", opInt 1)])
        = bundleResultNew (bundleMetaInit "T" [] [("a", opInt 1)])
    ∧ bundleMetaInit "T" [] [("a", opInt 1)] = bundleMetaInit "T" [] [("a", opInt 1)] :=
  c7_deterministic_build "T" [] [("a", opInt 1)] _ _ rfl rfl

/-! ### C8 -/

theorem mem_keysOf_dSet_self (m : NS) (k : String) (v : Value) :
    k ∈ keysOf (dSet m k v) := by
  by_cases h : k ∈ keysOf m
  · rw [keysOf_dSet_of_mem v h]
    exact h
  · rw [keysOf_dSet_of_not_mem v h]
    exact List.mem_append.mpr (Or.inr (List.mem_singleton.mpr rfl))

theorem mem_keysOf_dSet_of_mem {m : NS} {k : String} (k' : String) (v : Value)
    (h : k ∈ keysOf m) : k ∈ keysOf (dSet m k' v) := by
  by_cases h' : k' ∈ keysOf m
  · rw [keysOf_dSet_of_mem v h']
    exact h
  · rw [keysOf_dSet_of_not_mem v h']
    exact List.mem_append.mpr (Or.inl h)

theorem mem_keysOf_dUpdate_of_mem {m : NS} {k : String} (items : NS)
    (h : k ∈ keysOf m) : k ∈ keysOf (dUpdate m items) := by
  induction items generalizing m with
  | nil => exact h
  | cons kv rest ih => exact ih (mem_keysOf_dSet_of_mem kv.1 kv.2 h)

theorem mem_keysOf_dUpdate_of_mem_items {items : NS} {k : String} (m : NS)
    (h : k ∈ keysOf items) : k ∈ keysOf (dUpdate m items) := by
  induction items generalizing m with
  | nil => simp [keysOf] at h
  | cons kv rest ih =>
    rw [keysOf] at h
    rcases List.mem_cons.mp h with h1 | h1
    · subst h1
      exact mem_keysOf_dUpdate_of_mem rest (mem_keysOf_dSet_self m kv.1 kv.2)
    · exact ih _ h1

/-- Every class dictionary produced by `BundleMeta.__init__` contains the
`single_entity` bookkeeping key written by `Bundle.__init__`; a class
whose dictionary lacks it cannot be a finalized bundle definition. -/
theorem single_entity_mem_clsDict (nm : String) (ds : List NS) (body : NS) :
    "single_entity" ∈ keysOf (bundleMetaInit nm ds body).clsDict := by
  simp only [bundleMetaInit]
  apply mem_keysOf_dUpdate_of_mem
  apply mem_keysOf_dUpdate_of_mem_items
  decide

theorem classDicts_error {bases : List PyBase} (h : ∃ t, PyBase.nonClass t ∈ bases) :
    classDicts bases = .error .typeError := by
  induction bases with
  | nil =>
    obtain ⟨t, ht⟩ := h
    simp at ht
  | cons b rest ih =>
    obtain ⟨t, ht⟩ := h
    cases b with
    | nonClass tag => rfl
    | cls d =>
      have hrest : PyBase.nonClass t ∈ rest := by
        rcases List.mem_cons.mp ht with h1 | h1
        · exact absurd h1 (by simp)
        · exact h1
      show (classDicts rest).map (fun ds => d :: ds) = _
      rw [ih ⟨t, hrest⟩]
      rfl

theorem classDicts_ok {bases : List PyBase}
    (h : ∀ b ∈ bases, ∃ d, b = PyBase.cls d) :
    ∃ ds, classDicts bases = .ok ds := by
  induction bases with
  | nil => exact ⟨[], rfl⟩
  | cons b rest ih =>
    obtain ⟨d, hd⟩ := h b (List.mem_cons_self _ _)
    subst hd
    obtain ⟨ds, hds⟩ := ih (fun b hb => h b (List.mem_cons_of_mem _ hb))
    refine ⟨d :: ds, ?_⟩
    show (classDicts rest).map (fun ds => d :: ds) = _
    rw [hds]
    rfl

/-- C8, counterexample.  The claim says a malformed base — a base that is
not itself a valid definition — immediately raises a construction error.
But a plain class whose dictionary lacks every builder bookkeeping key
(in particular `single_entity`, present in every finalized definition's
class dictionary — `single_entity_mem_clsDict`), hence not a valid bundle
definition, is accepted without any error and its dictionary is merged
like any base's. -/
theorem c8_counterexample :
    buildChecked "X" [PyBase.cls [("foo", Value.plain 1)]] []
      = .ok (bundleMetaInit "X" [[("foo", Value.plain 1)]] [])
    ∧ "single_entity" ∉ keysOf [("foo", Value.plain 1)] :=
  ⟨rfl, by decide⟩

/-- C8, amended: only a base that is not a class at all makes the
construction fail — `type.__new__` raises `TypeError` before any part of
the definition is built, and the failing call produces no definition;
when every base is an ordinary class (whether or not it is a bundle
definition), construction succeeds. -/
theorem c8_nonclass_base_error (nm : String) (bases : List PyBase) (body : NS) :
    ((∃ t, PyBase.nonClass t ∈ bases) →
      buildChecked nm bases body = .error .typeError)
    ∧ ((∀ b ∈ bases, ∃ d, b = PyBase.cls d) →
      ∃ defn, buildChecked nm bases body = .ok defn) := by
  constructor
  · intro h
    unfold buildChecked
    rw [classDicts_error h]
  · intro h
    obtain ⟨ds, hds⟩ := classDicts_ok h
    exact ⟨bundleMetaInit nm ds body, by unfold buildChecked; rw [hds]⟩

/-- C8, amended, witness: a non-class base fails with `TypeError` and no
definition; a plain-class base succeeds. -/
theorem c8_witness :
    buildChecked "X" [PyBase.nonClass 0] [] = .error .typeError
    ∧ ∃ defn, buildChecked "Y" [PyBase.cls [("foo", Value.plain 1)]] [] = .ok defn :=
  ⟨(c8_nonclass_base_error "X" [PyBase.nonClass 0] []).1 ⟨0, List.mem_cons_self _ _⟩,
   (c8_nonclass_base_error "Y" [PyBase.cls [("foo", Value.plain 1)]] []).2
     (by
       intro b hb
       rw [List.mem_singleton] at hb
       exact ⟨[("foo", Value.plain 1)], hb⟩)⟩

/-! ### C9 -/

theorem bundleNamespace_foldl (c : NS) (l : List String) (init : NS) :
    l.foldl (fun ns attr =>
      if !attr.startsWith "_" && attr != "metadata" then
        match getVal? c attr with
        | some v => ns ++ [(attr, v)]
        | none => ns
      else ns) init
    = init ++ (l.filter (fun a => !a.startsWith "_" && a != "metadata")).filterMap
        (fun a => (getVal? c a).map (fun v => (a, v))) := by
  induction l generalizing init with
  | nil => simp
  | cons a rest ih =>
    rw [List.foldl_cons, List.filter_cons]
    cases hP : (!a.startsWith "_" && a != "metadata") with
    | false => simpa using ih init
    | true =>
      cases hv : getVal? c a with
      | some v =>
        simpa [hv, List.filterMap_cons, List.append_assoc] using ih (init ++ [(a, v)])
      | none => simpa [hv, List.filterMap_cons] using ih init

/-- C9: the namespace `bundle()` builds contains exactly the attributes of
the class whose names do not start with an underscore and are not
`"metadata"`, each bound to `getattr(class_, name)`, in the order of
`dir(class_)` — and that order is the sorted attribute-name order. -/
theorem c9_bundle_namespace (c : NS) :
    bundleNamespace c
      = ((pyDir c).filter (fun a => !a.startsWith "_" && a != "metadata")).filterMap
          (fun a => (getVal? c a).map (fun v => (a, v)))
    ∧ (pyDir c).Sorted (· ≤ ·) := by
  constructor
  · unfold bundleNamespace
    rw [bundleNamespace_foldl c (pyDir c) []]
    simp
  · exact List.sorted_insertionSort _ _

/-! ### C10 -/

/-- C10: `col(_type, column)` returns `column` itself unchanged, so the
type argument never influences the built definition or the decoder
annotations — those come only from the expression's own type metadata. -/
theorem c10_col_ignores_type (t1 t2 : String) (column : Value) (nm : String)
    (ds : List NS) (k : String) (body : NS) :
    col t1 column = column
    ∧ col t1 column = col t2 column
    ∧ bundleMetaInit nm ds (body ++ [(k, col t1 column)])
        = bundleMetaInit nm ds (body ++ [(k, col t2 column)])
    ∧ bundleResultNew (bundleMetaInit nm ds (body ++ [(k, col t1 column)]))
        = bundleResultNew (bundleMetaInit nm ds (body ++ [(k, column)])) :=
  ⟨rfl, rfl, rfl, rfl⟩

